import Mathlib

/-!
Verification development for the qwik-ecosystem-ci orchestration engine
(`utils.ts` and `ecosystem-ci.ts`).  The TypeScript source is embedded
shallowly: stateful functions become pure Lean functions over explicit
world records that return the list of shell commands they would issue
together with an `Except` result, JavaScript objects become association
lists, and JavaScript truthiness on strings and option fields is modelled
explicitly.  External collaborators (the filesystem, `git`, package-manager
detection by the `ni` library) enter as parameters.
-/

namespace QwikEco

deriving instance DecidableEq for Except

/-- Association-list lookup, modelling property access `obj[key]` on a
JavaScript object (first binding wins; real objects have unique keys). -/
def dlookup {α : Type} : List (String × α) → String → Option α
  | [], _ => none
  | e :: t, q => if e.1 = q then some e.2 else dlookup t q

/-- First-some choice on options (JavaScript `a ?? b` at the value level). -/
def oor {α : Type} : Option α → Option α → Option α
  | some x, _ => some x
  | none, b => b

/-- Object spread `\x7b...a, ...b\x7d`: keys of `a` keep their position but
take the value from `b` when `b` also binds them; keys only in `b` are
appended after. -/
def mergeObj {α : Type} (a b : List (String × α)) : List (String × α) :=
  a.map (fun e => (e.1, (dlookup b e.1).getD e.2)) ++
    b.filter (fun e => (dlookup a e.1).isNone)

/-- `if (x == null) x = d` on an optional field. -/
def jsDefault {α : Type} (a : Option α) (d : α) : Option α :=
  match a with
  | none => some d
  | some x => some x

/-- JavaScript `a || b` on strings (the empty string is falsy). -/
def jsOrS (a b : String) : String := if a = "" then b else a

/-! ## Repository Synchronizer (`setupRepo`, utils.ts lines 91-147) -/

/-- Options record of `setupRepo` (`RepoOptions` in types.d.ts); `none`
models an absent (`undefined`) field. -/
structure RepoOptions where
  repo : String
  dir : Option String := none
  branch : Option String := none
  tag : Option String := none
  commit : Option String := none
  shallow : Option Bool := none
  deriving Repr, DecidableEq

/-- External git state observed by `setupRepo`: whether `dir` exists, and
the captured stdout of `git ls-remote --get-url` run inside it (`none`
models the command raising, e.g. when `dir` is not a git repository).
`execSync` returns the raw stdout, so for a real clone this string is the
remote URL followed by a trailing newline. -/
structure GitWorld where
  dirExists : Bool
  lsRemoteOut : Option String
  deriving Repr, DecidableEq

/-- Fetch target built by `setupRepo`: `git fetch ... origin tag <t>`
versus `git fetch ... origin <rev>`. -/
inductive FetchTarget where
  | tag (t : String)
  | rev (r : String)
  deriving Repr, DecidableEq

/-- Shell commands issued by the synchronizer, in structured form mirroring
the template strings of the source. -/
inductive Cmd where
  | lsRemote
  | rmRf (dir : String)
  | clone (shallow : Bool) (branchArg : String) (repo : String) (dir : String)
  | clean
  | fetch (shallow : Bool) (target : FetchTarget)
  | checkoutDetached (arg : String)
  | checkoutBranch (branch : String)
  | mergeFetchHead
  | resetHard (ref : String)
  deriving Repr, DecidableEq

/-- A value of the `Overrides` record (`Record<string, string | boolean>`):
an override entry is either a string or a boolean flag. -/
inductive OvVal where
  | str (s : String)
  | bool (b : Bool)
  deriving Repr, DecidableEq

/-- JavaScript truthiness of an override value. -/
def OvVal.truthy : OvVal → Bool
  | .str s => s ≠ ""
  | .bool b => b

/-- Structured errors thrown by the engine (one constructor per `throw
new Error(...)` site). -/
inductive Err where
  | missingDir
  | failedDetectRun (dir : String)
  | invalidAgent (agent : String)
  | invalidTaskMissingScript (script : String)
  | invalidTask (t : String)
  | conflictingOverride (vite : OvVal) (release : String)
  | failedDetectApply (dir : String)
  | unsupportedPM (pm : String)
  deriving Repr, DecidableEq

/-- `setupRepo(options)`: defaults `branch`/`shallow` in place on the
options object, normalizes `repo` to a clone URL when it has no colon,
reuses the directory only when the captured remote URL equals the
normalized repo string, otherwise removes it recursively and re-clones;
then cleans, fetches and checks out the requested ref.  Returns the
commands issued, the (mutated) options, and the outcome. -/
def setupRepoDefaults (options : RepoOptions) : RepoOptions :=
  { options with
    branch := jsDefault options.branch "main"
    shallow := jsDefault options.shallow true }

/-- Normalization of `repo` to a full clone URL when it has no colon
(utils.ts lines 103-105). -/
def normalizeRepo (repo : String) : String :=
  if repo.data.contains ':' then repo
  else "https://github.com/" ++ repo ++ ".git"

/-- The existing-directory check (utils.ts lines 107-124): query the
captured remote URL and reuse the clone only when it equals the normalized
repo string, else remove the directory recursively.  Returns the issued
commands and the `needClone` flag. -/
def setupRepoPre (gw : GitWorld) (repoS dirS : String) : List Cmd × Bool :=
  if gw.dirExists then
    match gw.lsRemoteOut with
    | some out =>
      if repoS = out then ([Cmd.lsRemote], false)
      else ([Cmd.lsRemote, Cmd.rmRf dirS], true)
    | none => ([Cmd.lsRemote, Cmd.rmRf dirS], true)
  else ([], true)

/-- The clean/fetch/checkout tail of `setupRepo` (utils.ts lines 132-146). -/
def setupRepoPost (sh : Bool) (tagS commitS branchS : String) : List Cmd :=
  [Cmd.clean,
   Cmd.fetch sh
     (if tagS = "" then FetchTarget.rev (jsOrS commitS branchS)
      else FetchTarget.tag tagS)] ++
  (if sh then
    [Cmd.checkoutDetached
      (if tagS = "" then jsOrS commitS branchS else "tags/" ++ tagS)]
   else
    [Cmd.checkoutBranch branchS, Cmd.mergeFetchHead] ++
      (if tagS = "" ∧ commitS = "" then []
       else [Cmd.resetHard (jsOrS tagS commitS)]))

def setupRepo (gw : GitWorld) (options : RepoOptions) :
    List Cmd × RepoOptions × Except Err Unit :=
  let o := setupRepoDefaults options
  if (o.dir.getD "") = "" then ([], o, .error .missingDir)
  else
    let dirS := o.dir.getD ""
    let repoS := normalizeRepo o.repo
    let pre := setupRepoPre gw repoS dirS
    let cloneEffs : List Cmd :=
      if pre.2 then
        [Cmd.clone (o.shallow.getD true)
          (jsOrS (o.tag.getD "") (o.branch.getD "")) repoS dirS]
      else []
    (pre.1 ++ cloneEffs ++
      setupRepoPost (o.shallow.getD true) (o.tag.getD "") (o.commit.getD "")
        (o.branch.getD ""),
      o, .ok ())

/-- `true` on the recursive-remove command; used to express that a trace
performs no destructive delete. -/
def Cmd.isRmRf : Cmd → Bool
  | .rmRf _ => true
  | _ => false

/-- The fetch targets occurring in a trace. -/
def fetchTargetsOf (tr : List Cmd) : List FetchTarget :=
  tr.filterMap fun c =>
    match c with
    | .fetch _ t => some t
    | _ => none

/-- The ref a fetch target names. -/
def FetchTarget.ref : FetchTarget → String
  | .tag t => t
  | .rev r => r

/-- Checkout-target precedence exactly as the specification words it:
explicit tag, else explicit commit, else branch. -/
def specTarget (tag commit branch : String) : String :=
  if tag ≠ "" then tag else if commit ≠ "" then commit else branch

/-- Input for C1: a `RepoOptions` naming an owner/name repo and a target
directory, as a suite would pass it. -/
def c1Options : RepoOptions := { repo := "QwikDev/qwik", dir := some "ws/qwik" }

/-- The remote URL `setupRepo` normalizes `"QwikDev/qwik"` to. -/
def c1Url : String := "https://github.com/QwikDev/qwik.git"

/-- World after a first successful sync, observed through the real command
runner: `git ls-remote --get-url` prints the URL plus a newline and
`execSync` does not strip it. -/
def c1WorldGit : GitWorld := { dirExists := true, lsRemoteOut := some (c1Url ++ "\n") }

/-- The same world as a newline-stripping runner would report it. -/
def c1WorldExact : GitWorld := { dirExists := true, lsRemoteOut := some c1Url }

/-! ## Task dispatch (`toCommand` and `parseCommand`, utils.ts lines 149-213) -/

/-- A regex `\w` character: ASCII letter, digit or underscore. -/
def jsWordChar (c : Char) : Bool := c.isAlphanum || c == '_'

/-- A JavaScript `\s` whitespace character (common cases). -/
def jsSpace (c : Char) : Bool :=
  c == ' ' || c == '\t' || c == '\n' || c == '\r' || c == '\x0b' || c == '\x0c'

/-- `String.prototype.trim`, modelled on the character list. -/
def trimL (l : List Char) : List Char :=
  ((l.dropWhile jsSpace).reverse.dropWhile jsSpace).reverse

/-- `p.data.isPrefixOf s.data`: `String.prototype.startsWith`, modelled on
character lists so terms evaluate by `decide`. -/
def strStartsWith (s p : String) : Bool := p.data.isPrefixOf s.data

/-- Deterministic reading of the anchored regex
`\x5e(\w+)(?:\s+(--.+))?$` on an already-trimmed character list: a maximal
run of word characters, optionally followed by whitespace and flags that
start with two dashes, contain at least one further character and no
newline (`.` does not match a newline, `$` only the very end). -/
def parseCommandL (t : List Char) : Option (String × Option String) :=
  let cmd := t.takeWhile jsWordChar
  let rest := t.dropWhile jsWordChar
  if cmd.isEmpty then none
  else if rest.isEmpty then some (cmd.asString, none)
  else
    let ws := rest.takeWhile jsSpace
    let flags := rest.dropWhile jsSpace
    if ws.isEmpty then none
    else
      match flags with
      | '-' :: '-' :: rest2 =>
        if rest2.isEmpty then none
        else if rest2.any (fun c => c == '\n') then none
        else some (cmd.asString, some flags.asString)
      | _ => none

/-- `parseCommand(command)` (utils.ts lines 200-213). -/
def parseCommand (command : String) : Option (String × Option String) :=
  parseCommandL (trimL command.data)

/-- A single task as `toCommand` receives it: a shell/script string, a
zero-argument function (identified by a tag), or a script-reference
object. -/
inductive Task where
  | str (s : String)
  | fn (id : Nat)
  | scriptRef (script : String) (args : List String)
  deriving Repr, DecidableEq

/-- The `Task | Task[] | void` union of the `toCommand` parameter. -/
inductive TaskArg where
  | void
  | single (t : Task)
  | arr (ts : List Task)
  deriving Repr, DecidableEq

/-- Effects of the Suite Runner: embedded synchronizer commands, raw shell
commands through `$`, manager run/install commands built by `getCommand`,
function-task invocations, and the Override Engine steps. -/
inductive REff where
  | git (c : Cmd)
  | sh (cmd : String)
  | agentRun (agent : String) (args : List String)
  | frozenInstall (agent : String)
  | call (id : Nat)
  | gitClean
  | writePkg
  | install (pm : String)
  deriving Repr, DecidableEq

/-- `[parsedCmd.cmd, parsedCmd.flags].filter((v) => !!v)`. -/
def runArgs (c : String) (f : Option String) : List String :=
  (c :: (match f with | some x => [x] | none => [])).filter
    (fun s => decide (s ≠ ""))

/-- One iteration of the `toCommand` loop body (utils.ts lines 155-188) on
a single (possibly null) task: returns the effects performed and the
exception, if any.  A string that `parseCommand` rejects falls past the
string branch and past the function/object branches into the final
`throw`. -/
def runTask (scripts : List (String × String)) (agent : String) :
    Option Task → List REff × Option Err
  | none => ([], none)
  | some (.str s) =>
    if s = "" then ([], none)
    else
      match parseCommand s with
      | some (c, f) =>
        if (dlookup scripts c).isSome then
          ([REff.agentRun agent (runArgs c f)], none)
        else ([REff.sh s], none)
      | none => ([], some (Err.invalidTask s))
  | some (.fn id) => ([REff.call id], none)
  | some (.scriptRef sc args) =>
    if sc = "" then ([], some (Err.invalidTask "object"))
    else if (dlookup scripts sc).isSome then
      ([REff.agentRun agent (sc :: args)], none)
    else ([], some (Err.invalidTaskMissingScript sc))

/-- `Array.isArray(task) ? task : [task]`. -/
def toTasks : TaskArg → List (Option Task)
  | .void => [none]
  | .single t => [some t]
  | .arr ts => ts.map some

/-- The `toCommand` loop over all tasks, stopping at the first thrown
error but keeping the effects already performed. -/
def runTasks (scripts : List (String × String)) (agent : String) :
    List (Option Task) → List REff × Option Err
  | [] => ([], none)
  | t :: rest =>
    match runTask scripts agent t with
    | (effs, some e) => (effs, some e)
    | (effs, none) =>
      let r := runTasks scripts agent rest
      (effs ++ r.1, r.2)

/-- Running a whole `Task | Task[] | void` hook slot. -/
def runTaskArg (scripts : List (String × String)) (agent : String)
    (ta : TaskArg) : List REff × Option Err :=
  runTasks scripts agent (toTasks ta)

/-! ## Environment (`setupEnvironment` lines 57-71 and `$` lines 29-55) -/

/-- The call `$` makes: `execSync(cmd, \x7b cwd, encoding: "utf-8" \x7d)` —
the options object carries no `env` key. -/
structure ExecCall where
  cmd : String
  cwd : String
  envOpt : Option (List (String × String))
  deriving Repr, DecidableEq

/-- The exact `execSync` invocation built by `$` (utils.ts lines 45-48). -/
def dollarExec (cwd cmd : String) : ExecCall :=
  { cmd := cmd, cwd := cwd, envOpt := none }

/-- `child_process` semantics: a child spawned without an `env` option
inherits `process.env` unchanged. -/
def effectiveEnv (procEnv : List (String × String)) (c : ExecCall) :
    List (String × String) :=
  c.envOpt.getD procEnv

/-- The extended environment record built by `setupEnvironment`
(utils.ts lines 62-68); it is stored in the module-level `env` variable
and returned, but never handed to `execSync`. -/
def setupEnvironmentEnv (procEnv : List (String × String)) :
    List (String × String) :=
  mergeObj procEnv
    [("CI", "true"),
     ("YARN_ENABLE_IMMUTABLE_INSTALLS", "false"),
     ("NODE_OPTIONS", "--max-old-space-size=6144"),
     ("ECOSYSTEM_CI", "true")]

/-! ## Bisection Controller (`bisectQwik`, utils.ts lines 369-407) -/

/-- A commit as the bisection loop observes it: an identity and the
subject line `git log -1 --format=%s` prints. -/
structure Commit where
  id : Nat
  subject : String
  deriving Repr, DecidableEq

/-- `commitMsg.match(/^(?:release|docs)[:(]/)` is non-null. -/
def isNonCodeCommit (s : String) : Bool :=
  strStartsWith s "release:" || strStartsWith s "release(" ||
    strStartsWith s "docs:" || strStartsWith s "docs("

/-- Events of one bisection run. -/
inductive BEv where
  | resetHard
  | bisectStart
  | bisectBad
  | bisectGoodRef (ref : String)
  | readSubject (c : Commit)
  | bisectSkip
  | probe (c : Commit)
  | verdictGood
  | verdictBad
  | bisectReset
  | logErr (site : Nat)
  deriving Repr, DecidableEq

/-- The `while (bisecting)` loop (utils.ts lines 384-396) over the
candidates the version-control tool will present, head first.  `probe`
is the caller-supplied suite run, `true` meaning it returned an error.
A non-code subject is skipped (`git bisect skip`) without probing;
otherwise the probe runs, the working tree is reset, and the verdict is
reported; the loop continues while the tool output still starts with
"Bisecting:", i.e. while candidates remain.  Returns the events and the
list of commits passed to the probe. -/
def bisectIter (probe : Commit → Bool) : List Commit → List BEv × List Commit
  | [] => ([], [])
  | c :: rest =>
    if isNonCodeCommit c.subject then
      let r := bisectIter probe rest
      ([BEv.readSubject c, BEv.bisectSkip] ++ r.1, r.2)
    else
      let verdict := if probe c then BEv.verdictBad else BEv.verdictGood
      let head := [BEv.readSubject c, BEv.probe c, BEv.resetHard, verdict]
      if rest.isEmpty then (head, [c])
      else
        let r := bisectIter probe rest
        (head ++ r.1, c :: r.2)

/-- The whole `try` body of `bisectQwik`: reset, session start, bad/good
marks, then the loop. -/
def bisectBody (good : String) (probe : Commit → Bool)
    (cands : List Commit) : List BEv :=
  [BEv.resetHard, BEv.bisectStart, BEv.bisectBad, BEv.bisectGoodRef good] ++
    (bisectIter probe cands).1

/-- `bisectQwik` with its try/catch/finally shape: `cut = some k` models
an exception raised after `k` events of the try body (caught and logged);
`resetFails` models the final `git bisect reset` itself raising (caught
and logged inside the finally block).  The Boolean result records whether
an exception escapes to the caller. -/
def bisectQwik (good : String) (probe : Commit → Bool) (cands : List Commit)
    (cut : Option Nat) (resetFails : Bool) : List BEv × Bool :=
  let body := bisectBody good probe cands
  let tryPart :=
    match cut with
    | none => body
    | some k => body.take k ++ [BEv.logErr 0]
  let finPart := BEv.bisectReset :: (if resetFails then [BEv.logErr 1] else [])
  (tryPart ++ finPart, false)

/-! ## Override Engine (`isLocalOverride` lines 409-422,
`overridePackageManagerVersion` lines 431-466,
`applyPackageOverrides` lines 468-543) -/

/-- What `fs.lstatSync` reports for a path: an existing directory, an
existing non-directory, or ENOENT. -/
inductive FsKind where
  | dir
  | file
  | notFound
  deriving Repr, DecidableEq

/-- Splitting a character list on `/`. -/
def splitSlash : List Char → List (List Char)
  | [] => [[]]
  | c :: t =>
    if c = '/' then [] :: splitSlash t
    else
      match splitSlash t with
      | [] => [[c]]
      | s :: rest => (c :: s) :: rest

/-- `path.resolve` against a current working directory: absolute paths
stand, relative ones are joined to `cwd`, then `.`/`..`/empty segments are
normalized away. -/
def pathResolve (cwd v : String) : String :=
  let full := if strStartsWith v "/" then v else cwd ++ "/" ++ v
  let segs := (splitSlash full.data).foldl
    (fun acc s =>
      if s.isEmpty then acc
      else if s = ['.'] then acc
      else if s = ['.', '.'] then acc.dropLast
      else acc ++ [s]) []
  ('/' :: List.intercalate ['/'] segs).asString

/-- `isLocalOverride(v)`: a value with no slash or starting with `@` is a
version number or package name; otherwise it is a local override exactly
when `lstatSync` reports an existing directory (ENOENT means false). -/
def isLocalOverride (fs : String → FsKind) (v : String) : Bool :=
  if ¬ v.data.contains '/' ∨ strStartsWith v "@" then false
  else
    match fs v with
    | .dir => true
    | _ => false

/-- `useFileProtocol(v)` inside `applyPackageOverrides`. -/
def useFileProtocol (fs : String → FsKind) (cwd v : String) : String :=
  if isLocalOverride fs v then "file:" ++ pathResolve cwd v else v

/-- The string value of an override entry (the `value as string` cast
after the type filter). -/
def OvVal.strVal : OvVal → String
  | .str s => s
  | .bool _ => ""

/-- The sanitization step of `applyPackageOverrides` (lines 476-481):
drop non-string values, rewrite local-directory values through the file
protocol. -/
def sanitizeOverrides (fs : String → FsKind) (cwd : String)
    (ov : List (String × OvVal)) : List (String × String) :=
  (ov.filter fun e =>
    match e.2 with
    | OvVal.str _ => true
    | _ => false).map
    fun e => (e.1, useFileProtocol fs cwd e.2.strVal)

/-- Sanitization as the specification words it: non-string values are
dropped; a string containing a path separator, not starting with the
scoped-package marker, and naming an existing directory becomes `file:`
plus its absolute path; every other string is unchanged. -/
def specSanitize (fs : String → FsKind) (cwd : String)
    (ov : List (String × OvVal)) : List (String × String) :=
  ov.filterMap fun e =>
    match e.2 with
    | OvVal.str s =>
      some (e.1,
        if s.data.contains '/' && !strStartsWith s "@" && (fs s == FsKind.dir)
        then "file:" ++ pathResolve cwd s else s)
    | _ => none

/-- The filesystem of the C5 example: `./local-dir` is an existing
directory. -/
def c5Fs : String → FsKind :=
  fun s => if s = "./local-dir" then FsKind.dir else FsKind.notFound

/-- The `pnpm` section of a manifest (only its `overrides` block is
touched). -/
structure PnpmCfg where
  overrides : Option (List (String × String)) := none
  deriving Repr, DecidableEq

/-- The parsed `package.json` of the downstream project. -/
structure Pkg where
  name : String := ""
  packageManager : Option String := none
  engines : Option (List (String × String)) := none
  dependencies : Option (List (String × String)) := none
  devDependencies : Option (List (String × String)) := none
  pnpm : Option PnpmCfg := none
  resolutions : Option (List (String × String)) := none
  overrides : Option (List (String × String)) := none
  scripts : List (String × String) := []
  deriving Repr, DecidableEq

/-- JavaScript assignment `obj[k] = v`: replace the binding in place when
the key exists, append it otherwise. -/
def setKey {α : Type} (m : List (String × α)) (k : String) (v : α) :
    List (String × α) :=
  if (dlookup m k).isSome then m.map (fun e => if e.1 = k then (k, v) else e)
  else m ++ [(k, v)]

/-- `semver.eq` restricted to the exact-version comparison the code makes
(the constructor trims its input). -/
def semverEq (a b : String) : Bool := decide (trimL a.data = trimL b.data)

/-- `agent.split("@")[0]`. -/
def pmOfAgent (agent : String) : String :=
  (agent.data.takeWhile (fun c => c ≠ '@')).asString

/-- `overridePackageManagerVersion(pkg, pm)` (utils.ts lines 431-466):
read the version in use from the `packageManager` pin or from
`<pm> --version` output (`pmVersionOut`); only pnpm exactly at 7.18.0 is
rewritten to 7.18.1 in the pin, the engines block and, when present and
truthy, the pnpm devDependency. -/
def overridePackageManagerVersion (pkg : Pkg) (pm : String)
    (pmVersionOut : String) : Pkg × Bool :=
  let versionInUse :=
    match pkg.packageManager with
    | some s =>
      if strStartsWith s (pm ++ "@") then (s.data.drop (pm.length + 1)).asString
      else pmVersionOut
    | none => pmVersionOut
  let overrideWithVersion : Option String :=
    if pm = "pnpm" then
      if semverEq versionInUse "7.18.0" then some "7.18.1" else none
    else none
  match overrideWithVersion with
  | some v =>
    let newDev :=
      match pkg.devDependencies with
      | some d =>
        if (dlookup d pm).getD "" ≠ "" then some (setKey d pm v) else some d
      | none => none
    ({ pkg with
        packageManager := some (pm ++ "@" ++ v)
        engines := some (setKey (pkg.engines.getD []) pm v)
        devDependencies := newDev }, true)
  | none => (pkg, false)

/-- External collaborators of `applyPackageOverrides`: the filesystem and
cwd for local-path resolution, the `ni` detection result for the project
directory, and the captured `<pm> --version` output. -/
structure ApplyExt where
  fs : String → FsKind
  cwd : String
  detect : Option String
  pmVersionOut : String

/-- One iteration of the npm direct-dependency loop body (utils.ts
lines 521-528) restricted to one block: `if (block?.[name])
block[name] = version`. -/
def updIfTruthy (m : List (String × String)) (n v : String) :
    List (String × String) :=
  if (dlookup m n).getD "" ≠ "" then setKey m n v else m

/-- The whole npm loop over the override entries, one block. -/
def applyDirect (m : List (String × String))
    (sv : List (String × String)) : List (String × String) :=
  sv.foldl (fun d e => updIfTruthy d e.1 e.2) m

/-- One iteration of the npm loop on the manifest (both blocks). -/
def npmStep (p : Pkg) (e : String × String) : Pkg :=
  { p with
    dependencies := p.dependencies.map (fun d => updIfTruthy d e.1 e.2)
    devDependencies := p.devDependencies.map (fun d => updIfTruthy d e.1 e.2) }

/-- `applyPackageOverrides(dir, pkg, overrides)` (utils.ts lines 468-543):
sanitize, clean the worktree, detect the manager, apply the
pnpm-7.18.0 pin fix, then merge the overrides per manager — pnpm into
devDependencies and pnpm.overrides, yarn into resolutions, npm into
overrides plus truthy direct dependencies/devDependencies — write the
manifest and reinstall; any other manager is fatal. -/
def applyPackageOverrides (ext : ApplyExt) (dir : String) (pkg : Pkg)
    (overrides : List (String × OvVal)) : List REff × Except Err Pkg :=
  let sv := sanitizeOverrides ext.fs ext.cwd overrides
  match ext.detect with
  | none => ([REff.gitClean], .error (Err.failedDetectApply dir))
  | some agent =>
    let pm := pmOfAgent agent
    let pkg1 := (overridePackageManagerVersion pkg pm ext.pmVersionOut).1
    if pm = "pnpm" then
      let pkg2 :=
        { pkg1 with
          devDependencies := some (mergeObj (pkg1.devDependencies.getD []) sv) }
      let pkg3 :=
        { pkg2 with
          pnpm := some
            { overrides := some
                (mergeObj ((pkg2.pnpm.getD ⟨none⟩).overrides.getD []) sv) } }
      ([REff.gitClean, REff.writePkg, REff.install "pnpm"], .ok pkg3)
    else if pm = "yarn" then
      ([REff.gitClean, REff.writePkg, REff.install "yarn"],
        .ok { pkg1 with
          resolutions := some (mergeObj (pkg1.resolutions.getD []) sv) })
    else if pm = "npm" then
      let pkg2 :=
        { pkg1 with
          overrides := some (mergeObj (pkg1.overrides.getD []) sv) }
      ([REff.gitClean, REff.writePkg, REff.install "npm"],
        .ok (sv.foldl npmStep pkg2))
    else ([REff.gitClean], .error (Err.unsupportedPM pm))

/-- The keys of an object. -/
def keysOf {α : Type} (m : List (String × α)) : List String := m.map Prod.fst

/-- External inputs for the C6 witness: pnpm 8 detected, nothing on disk. -/
def c6Ext : ApplyExt :=
  { fs := fun _ => FsKind.notFound, cwd := "/w",
    detect := some "pnpm@8", pmVersionOut := "8.0.0" }

/-! ## Suite Runner (`runInRepo`, utils.ts lines 215-310) -/

/-- The combined `RunOptions & RepoOptions` record `runInRepo` receives. -/
structure RunOptions where
  repo : String
  workspace : String
  qwikPath : String
  dir : Option String := none
  branch : Option String := none
  tag : Option String := none
  commit : Option String := none
  shallow : Option Bool := none
  verify : Option Bool := none
  skipGit : Option Bool := none
  agent : Option String := none
  build : TaskArg := .void
  test : TaskArg := .void
  beforeInstall : TaskArg := .void
  beforeBuild : TaskArg := .void
  beforeTest : TaskArg := .void
  release : Option String := none
  overrides : Option (List (String × OvVal)) := none
  deriving Repr, DecidableEq

/-- External collaborators of `runInRepo`: the `ni` detection result at
the suite directory, the keys of the `AGENTS` record, the parsed
`package.json`, and the collaborators of `applyPackageOverrides`. -/
structure RunExt where
  detectRun : Option String
  knownAgents : List String
  pkg : Pkg
  applyExt : ApplyExt

/-- JavaScript truthiness of a `Task | Task[] | void` value (`undefined`
and the empty string are falsy; functions, objects and arrays truthy). -/
def taskArgTruthy : TaskArg → Bool
  | .void => false
  | .single (Task.str s) => s ≠ ""
  | .single _ => true
  | .arr _ => true

/-- `repo.substring(repo.lastIndexOf("/") + 1)`. -/
def afterLastSlash (s : String) : String :=
  ((s.data.reverse.takeWhile (fun c => c ≠ '/')).reverse).asString

/-- `path.resolve(options.workspace, options.dir ||
repo.substring(repo.lastIndexOf("/") + 1))` (utils.ts lines 240-243). -/
def runDirOf (o : RunOptions) : String :=
  pathResolve o.workspace (jsOrS (o.dir.getD "") (afterLastSlash o.repo))

/-- `x ||= v` on an override entry: assign when the current value is
absent or falsy. -/
def orAssign (ov : List (String × OvVal)) (k : String) (v : String) :
    List (String × OvVal) :=
  if ((dlookup ov k).getD (OvVal.str "")).truthy then ov
  else setKey ov k (OvVal.str v)

/-- The default overrides pointing the core library and companions at
local build paths (utils.ts lines 296-300). -/
def applyDefaultOverrides (qwikPath : String)
    (ov : List (String × OvVal)) : List (String × OvVal) :=
  orAssign (orAssign (orAssign ov
    "@builder.io/qwik" (qwikPath ++ "/packages/qwik"))
    "@builder.io/qwik-city" (qwikPath ++ "/packages/qwik-city"))
    "eslint-plugin-qwik" (qwikPath ++ "/packages/eslint-plugin-qwik")

/-- The release/override resolution step (utils.ts lines 285-301): a
truthy `release` either conflicts with a truthy, different `overrides.vite`
(fatal) or is written into `overrides.vite`; without a release the default
local-path overrides are or-assigned. -/
def resolveOverrides (release : Option String) (qwikPath : String)
    (ov : List (String × OvVal)) : Except Err (List (String × OvVal)) :=
  if (release.getD "") ≠ "" then
    match dlookup ov "vite" with
    | some v =>
      if v.truthy ∧ v ≠ OvVal.str (release.getD "") then
        .error (Err.conflictingOverride v (release.getD ""))
      else .ok (setKey ov "vite" (OvVal.str (release.getD "")))
    | none => .ok (setKey ov "vite" (OvVal.str (release.getD "")))
  else .ok (applyDefaultOverrides qwikPath ov)

/-- Running a sequence of hook slots, stopping at the first error. -/
def runHooks (scripts : List (String × String)) (ag : String) :
    List TaskArg → List REff × Option Err
  | [] => ([], none)
  | h :: t =>
    let r := runTaskArg scripts ag h
    match r.2 with
    | some e => (r.1, some e)
    | none =>
      let rt := runHooks scripts ag t
      (r.1 ++ rt.1, rt.2)

/-- The in-place defaulting of `verify`, `skipGit` and `branch`
(utils.ts lines 216-224). -/
def preDefaults (o : RunOptions) : RunOptions :=
  { o with
    verify := jsDefault o.verify true
    skipGit := jsDefault o.skipGit false
    branch := jsDefault o.branch "main" }

/-- The `beforeInstall` hook and the optional verify phase of `runInRepo`
(utils.ts lines 275-284). -/
def runPreHooks (ext : RunExt) (tr : List REff) (o2 : RunOptions)
    (ag : String) : List REff × RunOptions × Except Err Unit :=
  let scripts := ext.pkg.scripts
  let bi := runTaskArg scripts ag o2.beforeInstall
  match bi.2 with
  | some e => (tr ++ bi.1, o2, .error e)
  | none =>
    if (o2.verify.getD false) ∧ taskArgTruthy o2.test then
      let ver := runHooks scripts ag
        [o2.beforeBuild, o2.build, o2.beforeTest, o2.test]
      match ver.2 with
      | some e =>
        (tr ++ bi.1 ++ [REff.frozenInstall ag] ++ ver.1, o2, .error e)
      | none =>
        (tr ++ bi.1 ++ [REff.frozenInstall ag] ++ ver.1, o2, .ok ())
    else (tr ++ bi.1, o2, .ok ())

/-- The synchronization step of `runInRepo` (utils.ts lines 245-249):
either the embedded `setupRepo` call on a fresh options object, or — with
`skipGit` — only a `cd`. -/
def runPreGit (gw : GitWorld) (o1 : RunOptions) :
    List REff × Except Err Unit :=
  if o1.skipGit.getD false then ([], .ok ())
  else
    let r := setupRepo gw
      { repo := o1.repo, dir := some (runDirOf o1), branch := o1.branch,
        tag := o1.tag, commit := o1.commit }
    (r.1.map REff.git, r.2.2)

/-- `runInRepo` up to and including the verify phase (utils.ts lines
215-284): defaults, repository synchronization (or `cd`), agent
detection/validation, the `beforeInstall` hook, and — when `verify` and a
truthy `test` task are both present — the frozen install plus the full
build and test cycle before overrides are applied. -/
def runPre (ext : RunExt) (gw : GitWorld) (o : RunOptions) :
    List REff × RunOptions × Except Err Unit :=
  let o1 := preDefaults o
  let dir := runDirOf o1
  let gitStep := runPreGit gw o1
  match gitStep.2 with
  | .error e => (gitStep.1, o1, .error e)
  | .ok _ =>
    match o1.agent with
    | none =>
      match ext.detectRun with
      | none => (gitStep.1, o1, .error (Err.failedDetectRun dir))
      | some a =>
        let o2 := { o1 with agent := some a }
        if ¬ ext.knownAgents.contains a then
          (gitStep.1, o2, .error (Err.invalidAgent a))
        else runPreHooks ext gitStep.1 o2 a
    | some a =>
      if ¬ ext.knownAgents.contains a then
        (gitStep.1, o1, .error (Err.invalidAgent a))
      else runPreHooks ext gitStep.1 o1 a

/-- `runInRepo` from the override-resolution step to the end (utils.ts
lines 285-309): resolve release/overrides (fatal on conflict, before any
override is applied), apply them, rebuild, and re-test when a test task
is present. -/
def runPost (ext : RunExt) (o2 : RunOptions) (ag dir : String) :
    List REff × RunOptions × Except Err String :=
  match resolveOverrides o2.release o2.qwikPath (o2.overrides.getD []) with
  | .error e => ([], o2, .error e)
  | .ok ov' =>
    let o3 := { o2 with overrides := o2.overrides.map (fun _ => ov') }
    let ap := applyPackageOverrides ext.applyExt dir ext.pkg ov'
    match ap.2 with
    | .error e => (ap.1, o3, .error e)
    | .ok _ =>
      let scripts := ext.pkg.scripts
      let hb := runHooks scripts ag [o3.beforeBuild, o3.build]
      match hb.2 with
      | some e => (ap.1 ++ hb.1, o3, .error e)
      | none =>
        if taskArgTruthy o3.test then
          let ht := runHooks scripts ag [o3.beforeTest, o3.test]
          match ht.2 with
          | some e => (ap.1 ++ hb.1 ++ ht.1, o3, .error e)
          | none => (ap.1 ++ hb.1 ++ ht.1, o3, .ok dir)
        else (ap.1 ++ hb.1, o3, .ok dir)

/-- The whole `runInRepo(options)`: the pre phase, then the override and
rebuild phase; returns the effect trace, the (mutated) options object and
the `\x7b dir \x7d` result or the thrown error. -/
def runInRepo (ext : RunExt) (gw : GitWorld) (o : RunOptions) :
    List REff × RunOptions × Except Err String :=
  let pre := runPre ext gw o
  match pre.2.2 with
  | .error e => (pre.1, pre.2.1, .error e)
  | .ok _ =>
    let o2 := pre.2.1
    let post := runPost ext o2 (o2.agent.getD "") (runDirOf o2)
    (pre.1 ++ post.1, post.2.1, post.2.2)

/-- Effects that only the Override Engine performs: the destructive clean,
the manifest write and the reinstall. -/
def REff.isApplyEff : REff → Bool
  | .gitClean => true
  | .writePkg => true
  | .install _ => true
  | _ => false

/-- Concrete options for the C2 witness: git skipped, agent pinned, an
explicit release conflicting with an explicit override of the checked
key. -/
def c2Opts : RunOptions :=
  { repo := "r/x", workspace := "/ws", qwikPath := "/q",
    skipGit := some true, verify := some false, agent := some "npm",
    release := some "1.0.0",
    overrides := some [("vite", OvVal.str "2.0.0")] }

/-- Concrete collaborators for the C2 witness. -/
def c2Ext : RunExt :=
  { detectRun := none, knownAgents := ["npm"], pkg := {},
    applyExt := c6Ext }

/-- The options record as `runInRepo` leaves it. -/
def runInRepoOptions (ext : RunExt) (gw : GitWorld) (o : RunOptions) :
    RunOptions :=
  (runInRepo ext gw o).2.1

/-- Concrete options for the C10 counterexample: `branch` left unset. -/
def c10Opts : RunOptions :=
  { repo := "QwikDev/qwik-image", workspace := "/ws", qwikPath := "/q",
    skipGit := some true, verify := some false, agent := some "npm",
    branch := none }

/-- Concrete collaborators for the C10 counterexample. -/
def c10Ext : RunExt :=
  { detectRun := none, knownAgents := ["npm"], pkg := {},
    applyExt := c6Ext }

/-! ## Theorems -/

theorem dlookup_append {α : Type} (l₁ l₂ : List (String × α)) (k : String) :
    dlookup (l₁ ++ l₂) k = oor (dlookup l₁ k) (dlookup l₂ k) := by
  induction l₁ with
  | nil => simp [dlookup, oor]
  | cons e t ih =>
    by_cases h : e.1 = k <;> simp [dlookup, h, ih, oor]

theorem dlookup_filter_congr {α : Type} {p q : String × α → Bool}
    (l : List (String × α)) (k : String)
    (h : ∀ v : α, p (k, v) = q (k, v)) :
    dlookup (l.filter p) k = dlookup (l.filter q) k := by
  induction l with
  | nil => rfl
  | cons e t ih =>
    by_cases hk : e.1 = k
    · obtain ⟨k', v⟩ := e
      simp only at hk
      subst hk
      rw [List.filter_cons, List.filter_cons, h v]
      cases hq : q (k', v) <;> simp [dlookup, ih, hq]
    · rw [List.filter_cons, List.filter_cons]
      cases hp : p e <;> cases hq : q e <;>
        simp [dlookup, hk, ih]

theorem dlookup_mergeObj {α : Type} (a b : List (String × α)) (k : String) :
    dlookup (mergeObj a b) k = oor (dlookup b k) (dlookup a k) := by
  induction a with
  | nil =>
    have hb : mergeObj ([] : List (String × α)) b = b := by
      simp only [mergeObj, List.map_nil, List.nil_append]
      induction b with
      | nil => rfl
      | cons e t ih => simp [List.filter_cons, dlookup, ih]
    rw [hb]
    cases hbk : dlookup b k <;> simp [dlookup, oor, hbk]
  | cons e t ih =>
    by_cases hk : e.1 = k
    · obtain ⟨k', v⟩ := e
      simp only at hk
      subst hk
      simp only [mergeObj, List.map_cons, List.cons_append, dlookup, if_pos]
      cases hbk : dlookup b k' <;> simp [oor, dlookup, hbk]
    · have key : dlookup (mergeObj (e :: t) b) k
          = oor (dlookup (t.map (fun x => (x.1, (dlookup b x.1).getD x.2))) k)
              (dlookup (b.filter
                (fun x => (dlookup (e :: t) x.1).isNone)) k) := by
        simp only [mergeObj, List.map_cons, List.cons_append, dlookup,
          if_neg hk]
        exact dlookup_append _ _ k
      have congr1 : dlookup (b.filter
            (fun x => (dlookup (e :: t) x.1).isNone)) k
          = dlookup (b.filter (fun x => (dlookup t x.1).isNone)) k := by
        apply dlookup_filter_congr
        intro v
        simp [dlookup, hk]
      have merge_t : dlookup (mergeObj t b) k
          = oor (dlookup (t.map (fun x => (x.1, (dlookup b x.1).getD x.2))) k)
              (dlookup (b.filter (fun x => (dlookup t x.1).isNone)) k) := by
        simp only [mergeObj]
        exact dlookup_append _ _ k
      rw [key, congr1, ← merge_t, ih]
      have : dlookup (e :: t) k = dlookup t k := by simp [dlookup, hk]
      rw [this]

theorem jsDefault_getD {α : Type} (a : Option α) (d e : α) :
    (jsDefault a d).getD e = a.getD d := by
  cases a <;> rfl

theorem fetchTargetsOf_append (a b : List Cmd) :
    fetchTargetsOf (a ++ b) = fetchTargetsOf a ++ fetchTargetsOf b :=
  List.filterMap_append ..

theorem fetchTargetsOf_pre (gw : GitWorld) (r s : String) :
    fetchTargetsOf (setupRepoPre gw r s).1 = [] := by
  obtain ⟨de, ls⟩ := gw
  cases de with
  | false => rfl
  | true =>
    cases ls with
    | none => rfl
    | some v =>
      by_cases h : r = v <;> simp [setupRepoPre, fetchTargetsOf, h]

theorem fetchTargetsOf_cloneIf (P : Prop) [Decidable P] (sh : Bool)
    (b r d : String) :
    fetchTargetsOf (if P then [Cmd.clone sh b r d] else []) = [] := by
  split <;> rfl

theorem suffix3 {α : Type} (A B : List α) (c f x : α) :
    ∃ pre, A ++ (B ++ [c, f, x]) = pre ++ [x] :=
  ⟨A ++ B ++ [c, f], by simp⟩

theorem suffix4 {α : Type} (A B : List α) (c f x y : α) :
    ∃ pre, A ++ (B ++ [c, f, x, y]) = pre ++ [x, y] :=
  ⟨A ++ B ++ [c, f], by simp⟩

theorem suffix5 {α : Type} (A B : List α) (c f x y z : α) :
    ∃ pre, A ++ (B ++ [c, f, x, y, z]) = pre ++ [x, y, z] :=
  ⟨A ++ B ++ [c, f], by simp⟩

theorem fetchTargetsOf_post (sh : Bool) (tagS commitS branchS : String) :
    fetchTargetsOf (setupRepoPost sh tagS commitS branchS) =
      [if tagS = "" then FetchTarget.rev (jsOrS commitS branchS)
       else FetchTarget.tag tagS] := by
  cases sh <;> by_cases h : tagS = "" <;>
    by_cases h2 : commitS = "" <;>
    simp [setupRepoPost, fetchTargetsOf, h, h2]

/-- C1: synchronization is NOT idempotent as coded.  On a directory already
synchronized to the same RepoRef, the captured remote URL carries the
trailing newline that `execSync` preserves, so the equality test against
the normalized repo fails and the second call recursively removes the
directory and re-clones.  Had the captured output equalled the normalized
URL exactly (as with a newline-stripping runner), the clone would be
reused with no delete — showing the comparison is the broken step. -/
theorem c1_second_sync_deletes_matching_clone :
    (setupRepo c1WorldGit c1Options).1 =
      [Cmd.lsRemote, Cmd.rmRf "ws/qwik",
       Cmd.clone true "main" "https://github.com/QwikDev/qwik.git" "ws/qwik",
       Cmd.clean, Cmd.fetch true (FetchTarget.rev "main"),
       Cmd.checkoutDetached "main"] ∧
    Cmd.rmRf "ws/qwik" ∈ (setupRepo c1WorldGit c1Options).1 ∧
    ((setupRepo c1WorldExact c1Options).1.any Cmd.isRmRf = false) ∧
    (setupRepo c1WorldExact c1Options).1 =
      [Cmd.lsRemote, Cmd.clean, Cmd.fetch true (FetchTarget.rev "main"),
       Cmd.checkoutDetached "main"] := by
  refine ⟨by decide, by decide, by decide, by decide⟩

/-- C9: the fetch step and the final checkout positioning both follow the
precedence explicit tag > explicit commit > branch (branch defaulting to
"main"), in both shallow and non-shallow modes: the unique fetch in the
trace targets `specTarget tag commit branch`; in shallow mode the trace
ends with a detached checkout of that target (tags are addressed as
`tags/<tag>`); in non-shallow mode the trace ends with a hard reset to
that target when a tag or commit was given, else with the branch checkout
and merge of the fetched head. -/
theorem c9_target_precedence (gw : GitWorld) (o : RepoOptions) (d : String)
    (hd : o.dir = some d) (hne : d ≠ "") :
    (setupRepo gw o).2.2 = Except.ok () ∧
    fetchTargetsOf (setupRepo gw o).1 =
      [if o.tag.getD "" = ""
       then FetchTarget.rev
         (specTarget (o.tag.getD "") (o.commit.getD "") (o.branch.getD "main"))
       else FetchTarget.tag
         (specTarget (o.tag.getD "") (o.commit.getD "")
           (o.branch.getD "main"))] ∧
    (o.shallow.getD true = true →
      ∃ pre, (setupRepo gw o).1 = pre ++
        [Cmd.checkoutDetached ((if o.tag.getD "" = "" then "" else "tags/") ++
          specTarget (o.tag.getD "") (o.commit.getD "")
            (o.branch.getD "main"))]) ∧
    (o.shallow.getD true = false →
      (¬(o.tag.getD "" = "" ∧ o.commit.getD "" = "") →
        ∃ pre, (setupRepo gw o).1 = pre ++
          [Cmd.checkoutBranch (o.branch.getD "main"), Cmd.mergeFetchHead,
           Cmd.resetHard (specTarget (o.tag.getD "") (o.commit.getD "")
             (o.branch.getD "main"))]) ∧
      ((o.tag.getD "" = "" ∧ o.commit.getD "" = "") →
        ∃ pre, (setupRepo gw o).1 = pre ++
          [Cmd.checkoutBranch (specTarget (o.tag.getD "") (o.commit.getD "")
             (o.branch.getD "main")), Cmd.mergeFetchHead])) := by
  have hdir : (setupRepoDefaults o).dir.getD "" = d := by
    simp [setupRepoDefaults, hd]
  have hbr : (setupRepoDefaults o).branch.getD "" = o.branch.getD "main" := by
    simp [setupRepoDefaults, jsDefault_getD]
  have hsh : (setupRepoDefaults o).shallow.getD true = o.shallow.getD true := by
    simp [setupRepoDefaults, jsDefault_getD]
  have htg : (setupRepoDefaults o).tag = o.tag := rfl
  have hcm : (setupRepoDefaults o).commit = o.commit := rfl
  simp only [setupRepo, hdir, hbr, hsh, htg, hcm, if_neg hne]
  refine ⟨trivial, ?_, ?_, ?_⟩
  · rw [fetchTargetsOf_append, fetchTargetsOf_append, fetchTargetsOf_pre,
      fetchTargetsOf_cloneIf, fetchTargetsOf_post]
    by_cases h : o.tag.getD "" = "" <;>
      by_cases h2 : o.commit.getD "" = "" <;>
      simp [h, h2, specTarget, jsOrS]
  · intro hshallow
    rw [hshallow]
    by_cases h : o.tag.getD "" = "" <;>
      by_cases h2 : o.commit.getD "" = "" <;>
      simp [setupRepoPost, h, h2, specTarget, jsOrS] <;>
      exact suffix3 _ _ _ _ _
  · intro hshallow
    rw [hshallow]
    constructor
    · intro hnot
      by_cases h : o.tag.getD "" = "" <;>
        by_cases h2 : o.commit.getD "" = ""
      · exact absurd ⟨h, h2⟩ hnot
      · simp [setupRepoPost, h, h2, specTarget, jsOrS]
        exact suffix5 _ _ _ _ _ _ _
      · simp [setupRepoPost, h, h2, specTarget, jsOrS]
        exact suffix5 _ _ _ _ _ _ _
      · simp [setupRepoPost, h, h2, specTarget, jsOrS]
        exact suffix5 _ _ _ _ _ _ _
    · rintro ⟨h, h2⟩
      simp [setupRepoPost, h, h2, specTarget, jsOrS]
      exact suffix4 _ _ _ _ _ _

/-- Witness for C9 at a concrete input: with both a tag and a commit given,
the fetch targets the tag. -/
theorem c9_target_precedence_witness :
    fetchTargetsOf (setupRepo ⟨false, none⟩
      { repo := "r", dir := some "d", tag := some "v1",
        commit := some "c0" }).1 = [FetchTarget.tag "v1"] :=
  ((c9_target_precedence ⟨false, none⟩
    { repo := "r", dir := some "d", tag := some "v1", commit := some "c0" }
    "d" rfl (by decide)).2.1).trans (by decide)

/-- C4: dispatch of string tasks.  First half as claimed: a word plus
`--` flags dispatches through the manager-run form when the manifest has
that script, and as a raw shell command otherwise.  Second half refuted:
a multi-word string without flags does not run as a raw shell command —
`parseCommand` rejects it and `toCommand` then falls through to `throw
new Error("invalid task...")`, as it also does for the dotted script
names the repository's own suite files use. -/
theorem c4_string_task_dispatch :
    parseCommand "build --flag" = some ("build", some "--flag") ∧
    runTask [("build", "vite build")] "pnpm" (some (Task.str "build --flag"))
      = ([REff.agentRun "pnpm" ["build", "--flag"]], none) ∧
    runTask [] "pnpm" (some (Task.str "build --flag"))
      = ([REff.sh "build --flag"], none) ∧
    parseCommand "build test foo bar" = none ∧
    runTask [("build", "vite build")] "pnpm"
        (some (Task.str "build test foo bar"))
      = ([], some (Err.invalidTask "build test foo bar")) ∧
    runTask [("build.qwik-ci", "x")] "pnpm" (some (Task.str "build.qwik-ci"))
      = ([], some (Err.invalidTask "build.qwik-ci")) := by
  refine ⟨by decide, by decide, by decide, by decide, by decide, by decide⟩

/-- C3: the claimed extension is computed by `setupEnvironment` but no
shell command receives it: `$` passes no `env` to `execSync`, so every
child inherits the bare process environment, which here lacks all four
variables. -/
theorem c3_env_not_passed_to_commands :
    effectiveEnv [("PATH", "/usr/bin")] (dollarExec "/ws" "git clean -fdxq")
      = [("PATH", "/usr/bin")] ∧
    dlookup (effectiveEnv [("PATH", "/usr/bin")]
      (dollarExec "/ws" "git clean -fdxq")) "ECOSYSTEM_CI" = none ∧
    dlookup (effectiveEnv [("PATH", "/usr/bin")]
      (dollarExec "/ws" "git clean -fdxq")) "CI" = none ∧
    dlookup (setupEnvironmentEnv [("PATH", "/usr/bin")]) "CI" = some "true" ∧
    dlookup (setupEnvironmentEnv [("PATH", "/usr/bin")])
      "YARN_ENABLE_IMMUTABLE_INSTALLS" = some "false" ∧
    dlookup (setupEnvironmentEnv [("PATH", "/usr/bin")])
      "NODE_OPTIONS" = some "--max-old-space-size=6144" ∧
    dlookup (setupEnvironmentEnv [("PATH", "/usr/bin")])
      "ECOSYSTEM_CI" = some "true" := by
  refine ⟨by decide, by decide, by decide, by decide, by decide, by decide,
    by decide⟩

theorem bisectIter_no_reset (probe : Commit → Bool) (cands : List Commit) :
    BEv.bisectReset ∉ (bisectIter probe cands).1 := by
  induction cands with
  | nil => simp [bisectIter]
  | cons c rest ih =>
    by_cases h : isNonCodeCommit c.subject
    · simp [bisectIter, h, ih]
    · by_cases hr : rest.isEmpty <;>
        cases hp : probe c <;>
        simp [bisectIter, h, hr, hp, ih]

theorem bisectBody_no_reset (good : String) (probe : Commit → Bool)
    (cands : List Commit) :
    BEv.bisectReset ∉ bisectBody good probe cands := by
  simp [bisectBody, bisectIter_no_reset]

/-- C8: on every execution — loop finishing normally, an exception cut
anywhere inside the try body, the final reset itself failing — the
session reset command is issued exactly once, at the end, and no
exception escapes `bisectQwik`. -/
theorem c8_bisect_cleanup_exactly_once (good : String)
    (probe : Commit → Bool) (cands : List Commit) (cut : Option Nat)
    (resetFails : Bool) :
    (bisectQwik good probe cands cut resetFails).1.count BEv.bisectReset = 1 ∧
    (bisectQwik good probe cands cut resetFails).2 = false := by
  refine ⟨?_, rfl⟩
  have hbody : (bisectBody good probe cands).count BEv.bisectReset = 0 :=
    List.count_eq_zero.mpr (bisectBody_no_reset good probe cands)
  have htry : ∀ k : Nat,
      ((bisectBody good probe cands).take k).count BEv.bisectReset = 0 := by
    intro k
    have hsub := (List.take_sublist k (bisectBody good probe cands)).count_le
      BEv.bisectReset
    omega
  cases cut with
  | none =>
    cases resetFails <;>
      simp [bisectQwik, List.count_append, hbody, List.count_cons,
        List.count_nil]
  | some k =>
    cases resetFails <;>
      simp [bisectQwik, List.count_append, htry k, List.count_cons,
        List.count_nil]

/-- C7: a commit whose subject starts with `release:` or `docs:` is never
passed to the probe: it is not among the probed commits and no probe
event for it occurs in the trace — the loop skips it via `git bisect
skip`. -/
theorem bisectIter_probed_not_noncode (probe : Commit → Bool)
    (cands : List Commit) :
    ∀ x ∈ (bisectIter probe cands).2,
      isNonCodeCommit x.subject = false := by
  induction cands with
  | nil => simp [bisectIter]
  | cons c' rest ih =>
    intro x hx
    by_cases h' : isNonCodeCommit c'.subject
    · simp [bisectIter, h'] at hx
      exact ih x hx
    · have h'' : isNonCodeCommit c'.subject = false := Bool.eq_false_iff.mpr h'
      by_cases hr : rest.isEmpty <;>
        simp [bisectIter, h'', hr] at hx
      · subst hx
        exact h''
      · rcases hx with hx | hx
        · subst hx
          exact h''
        · exact ih x hx

theorem bisectIter_probeEv_not_noncode (probe : Commit → Bool)
    (cands : List Commit) :
    ∀ x : Commit, BEv.probe x ∈ (bisectIter probe cands).1 →
      isNonCodeCommit x.subject = false := by
  induction cands with
  | nil => simp [bisectIter]
  | cons c' rest ih =>
    intro x hx
    by_cases h' : isNonCodeCommit c'.subject
    · simp [bisectIter, h'] at hx
      exact ih x hx
    · have h'' : isNonCodeCommit c'.subject = false := Bool.eq_false_iff.mpr h'
      by_cases hr : rest.isEmpty <;>
        cases hp : probe c' <;>
        simp [bisectIter, h'', hr, hp] at hx <;>
        first
          | (subst hx
             exact h'')
          | (rcases hx with hx | hx
             · subst hx
               exact h''
             · exact ih x hx)

/-- C7: a commit whose subject starts with `release:` or `docs:` is never
passed to the probe: it is not among the probed commits and no probe
event for it occurs in the trace — the loop skips it via `git bisect
skip`. -/
theorem c7_noncode_commit_never_probed (probe : Commit → Bool)
    (cands : List Commit) (c : Commit)
    (h : strStartsWith c.subject "release:" = true ∨
         strStartsWith c.subject "docs:" = true) :
    c ∉ (bisectIter probe cands).2 ∧
    BEv.probe c ∉ (bisectIter probe cands).1 := by
  have hnc : isNonCodeCommit c.subject = true := by
    rcases h with h | h <;> simp [isNonCodeCommit, h]
  constructor
  · intro hmem
    have := bisectIter_probed_not_noncode probe cands c hmem
    rw [hnc] at this
    exact Bool.noConfusion this
  · intro hmem
    have := bisectIter_probeEv_not_noncode probe cands c hmem
    rw [hnc] at this
    exact Bool.noConfusion this

/-- Witness for C7 at a concrete input: a `release:` commit among the
candidates is not probed. -/
theorem c7_noncode_commit_never_probed_witness :
    (⟨0, "release: v1.0"⟩ : Commit) ∉
      (bisectIter (fun _ => true)
        [⟨0, "release: v1.0"⟩, ⟨1, "fix: bug"⟩]).2 :=
  (c7_noncode_commit_never_probed (fun _ => true)
    [⟨0, "release: v1.0"⟩, ⟨1, "fix: bug"⟩] ⟨0, "release: v1.0"⟩
    (Or.inl (by decide))).1

theorem useFileProtocol_eq_spec (fs : String → FsKind) (cwd s : String) :
    useFileProtocol fs cwd s =
      if s.data.contains '/' && !strStartsWith s "@" && (fs s == FsKind.dir)
      then "file:" ++ pathResolve cwd s else s := by
  unfold useFileProtocol isLocalOverride
  by_cases h1 : s.data.contains '/' <;>
    by_cases h2 : strStartsWith s "@" <;>
    cases h3 : fs s <;>
    simp [h1, h2, h3]

/-- C5: override sanitization agrees everywhere with the specification
description, and on the spec example `\x7ba: "1.2.3", b: true,
c: "./local-dir"\x7d` it drops `b`, keeps `a`, and rewrites `c` to
`file:` plus the absolute path. -/
theorem c5_override_sanitization :
    (∀ (fs : String → FsKind) (cwd : String) (ov : List (String × OvVal)),
      sanitizeOverrides fs cwd ov = specSanitize fs cwd ov) ∧
    sanitizeOverrides c5Fs "/work"
      [("a", OvVal.str "1.2.3"), ("b", OvVal.bool true),
       ("c", OvVal.str "./local-dir")]
      = [("a", "1.2.3"), ("c", "file:/work/local-dir")] := by
  constructor
  · intro fs cwd ov
    induction ov with
    | nil => rfl
    | cons e t ih =>
      cases hval : e.2 with
      | str s =>
        simp [sanitizeOverrides, specSanitize, List.filter_cons, hval,
          OvVal.strVal, useFileProtocol_eq_spec] at *
        exact ih
      | bool b =>
        simp [sanitizeOverrides, specSanitize, List.filter_cons, hval] at *
        exact ih
  · decide

theorem dlookup_eq_none_of_not_mem {α : Type} :
    ∀ (m : List (String × α)) (k : String), k ∉ keysOf m →
      dlookup m k = none := by
  intro m k
  induction m with
  | nil => intro _; rfl
  | cons e t ih =>
    intro h
    simp only [keysOf, List.map_cons, List.mem_cons, not_or] at h
    rw [dlookup, if_neg (fun he => h.1 he.symm)]
    exact ih h.2

theorem dlookup_map_setKey_ne {α : Type} (k q : String) (v : α)
    (h : k ≠ q) :
    ∀ m : List (String × α),
      dlookup (m.map fun e => if e.1 = k then (k, v) else e) q
        = dlookup m q := by
  intro m
  induction m with
  | nil => rfl
  | cons e t ih =>
    by_cases he : e.1 = k
    · simp only [List.map_cons, if_pos he, dlookup, if_neg h, ih]
      rw [if_neg (he ▸ h)]
    · simp only [List.map_cons, if_neg he, dlookup, ih]

theorem dlookup_setKey_self {α : Type} (m : List (String × α)) (k : String)
    (v : α) : dlookup (setKey m k v) k = some v := by
  by_cases h : (dlookup m k).isSome
  · rw [setKey, if_pos h]
    revert h
    induction m with
    | nil => intro h; simp [dlookup] at h
    | cons e t ih =>
      intro h
      by_cases he : e.1 = k
      · simp [dlookup, he]
      · have h' : (dlookup t k).isSome := by simpa [dlookup, he] using h
        simp only [List.map_cons, if_neg he]
        rw [dlookup, if_neg he]
        exact ih h'
  · rw [setKey, if_neg h, dlookup_append]
    have hn : dlookup m k = none := Option.not_isSome_iff_eq_none.mp h
    simp [hn, oor, dlookup]

theorem dlookup_setKey_ne {α : Type} (m : List (String × α)) (k q : String)
    (v : α) (h : k ≠ q) : dlookup (setKey m k v) q = dlookup m q := by
  rw [setKey]
  split
  · exact dlookup_map_setKey_ne k q v h m
  · rw [dlookup_append]
    have hkq : dlookup ([(k, v)] : List (String × α)) q = none := by
      simp [dlookup, h]
    rw [hkq]
    cases hq : dlookup m q <;> rfl

theorem dlookup_updIfTruthy_ne (m : List (String × String)) (n v q : String)
    (h : n ≠ q) : dlookup (updIfTruthy m n v) q = dlookup m q := by
  rw [updIfTruthy]
  split
  · exact dlookup_setKey_ne m n q v h
  · rfl

theorem applyDirect_not_mem :
    ∀ (sv : List (String × String)) (m : List (String × String)) (q : String),
      q ∉ keysOf sv → dlookup (applyDirect m sv) q = dlookup m q := by
  intro sv
  induction sv with
  | nil => intro m q _; rfl
  | cons e t ih =>
    intro m q h
    simp only [keysOf, List.map_cons, List.mem_cons, not_or] at h
    rw [show applyDirect m (e :: t)
        = applyDirect (updIfTruthy m e.1 e.2) t from rfl]
    rw [ih _ q (by simpa [keysOf] using h.2)]
    exact dlookup_updIfTruthy_ne m e.1 e.2 q (fun he => h.1 he.symm)

theorem dlookup_applyDirect :
    ∀ (sv : List (String × String)) (m : List (String × String))
      (k v : String), (keysOf sv).Nodup → dlookup sv k = some v →
      dlookup (applyDirect m sv) k =
        if (dlookup m k).getD "" ≠ "" then some v else dlookup m k := by
  intro sv
  induction sv with
  | nil => intro m k v _ hk; simp [dlookup] at hk
  | cons e t ih =>
    intro m k v hnd hk
    simp only [keysOf, List.map_cons, List.nodup_cons] at hnd
    rw [show applyDirect m (e :: t)
        = applyDirect (updIfTruthy m e.1 e.2) t from rfl]
    by_cases he : e.1 = k
    · subst he
      have hv : e.2 = v := by simpa [dlookup] using hk
      have hnot : e.1 ∉ keysOf t := by simpa [keysOf] using hnd.1
      rw [applyDirect_not_mem t _ e.1 hnot]
      rw [updIfTruthy]
      by_cases hm : (dlookup m e.1).getD "" ≠ ""
      · rw [if_pos hm, if_pos hm, dlookup_setKey_self, hv]
      · rw [if_neg hm, if_neg hm]
    · have hk' : dlookup t k = some v := by simpa [dlookup, he] using hk
      rw [ih (updIfTruthy m e.1 e.2) k v hnd.2 hk']
      rw [dlookup_updIfTruthy_ne m e.1 e.2 k he]

theorem npmFold_fields :
    ∀ (sv : List (String × String)) (p : Pkg),
      (sv.foldl npmStep p).dependencies
          = p.dependencies.map (fun d => applyDirect d sv) ∧
      (sv.foldl npmStep p).devDependencies
          = p.devDependencies.map (fun d => applyDirect d sv) ∧
      (sv.foldl npmStep p).overrides = p.overrides := by
  intro sv
  induction sv with
  | nil =>
    intro p
    refine ⟨?_, ?_, rfl⟩
    · cases hd : p.dependencies <;> simp [List.foldl, hd, applyDirect]
    · cases hd : p.devDependencies <;> simp [List.foldl, hd, applyDirect]
  | cons e t ih =>
    intro p
    have h := ih (npmStep p e)
    refine ⟨?_, ?_, ?_⟩
    · rw [List.foldl_cons, h.1]
      cases hd : p.dependencies <;>
        simp [npmStep, hd, applyDirect, List.foldl_cons]
    · rw [List.foldl_cons, h.2.1]
      cases hd : p.devDependencies <;>
        simp [npmStep, hd, applyDirect, List.foldl_cons]
    · rw [List.foldl_cons, h.2.2]
      rfl

theorem keysOf_sanitize_sublist (fs : String → FsKind) (cwd : String) :
    ∀ ov : List (String × OvVal),
      List.Sublist (keysOf (sanitizeOverrides fs cwd ov)) (keysOf ov) := by
  intro ov
  induction ov with
  | nil => simp [sanitizeOverrides, keysOf]
  | cons e t ih =>
    cases hval : e.2 with
    | str s =>
      have hstep : sanitizeOverrides fs cwd (e :: t)
          = (e.1, useFileProtocol fs cwd s) :: sanitizeOverrides fs cwd t := by
        simp [sanitizeOverrides, List.filter_cons, hval, OvVal.strVal]
      rw [hstep]
      exact List.Sublist.cons₂ e.1 ih
    | bool b =>
      have hstep : sanitizeOverrides fs cwd (e :: t)
          = sanitizeOverrides fs cwd t := by
        simp [sanitizeOverrides, List.filter_cons, hval]
      rw [hstep]
      exact List.Sublist.cons e.1 ih

/-- C6: for every entry of the sanitized override set, applying overrides
under pnpm places the entry in both the devDependencies block and the
pnpm.overrides block; under yarn only in the resolutions block (all other
blocks unchanged); under npm in the overrides block and additionally in
any truthy direct dependencies/devDependencies entry of that name; any
other detected manager fails with the unsupported-manager error, and a
failed detection fails with the detection error. -/
theorem c6_manager_specific_application (ext : ApplyExt) (dir : String)
    (pkg : Pkg) (ov : List (String × OvVal)) (k v : String)
    (hnd : (keysOf ov).Nodup)
    (hk : dlookup (sanitizeOverrides ext.fs ext.cwd ov) k = some v) :
    (ext.detect = none →
      (applyPackageOverrides ext dir pkg ov).2
        = .error (Err.failedDetectApply dir)) ∧
    ∀ agent, ext.detect = some agent →
      (pmOfAgent agent = "pnpm" →
        ∃ pkg', (applyPackageOverrides ext dir pkg ov).2 = .ok pkg' ∧
          (∃ d, pkg'.devDependencies = some d ∧ dlookup d k = some v) ∧
          (∃ pn o, pkg'.pnpm = some pn ∧ pn.overrides = some o ∧
            dlookup o k = some v)) ∧
      (pmOfAgent agent = "yarn" →
        ∃ pkg', (applyPackageOverrides ext dir pkg ov).2 = .ok pkg' ∧
          (∃ r, pkg'.resolutions = some r ∧ dlookup r k = some v) ∧
          pkg'.dependencies = pkg.dependencies ∧
          pkg'.devDependencies = pkg.devDependencies ∧
          pkg'.overrides = pkg.overrides ∧
          pkg'.pnpm = pkg.pnpm) ∧
      (pmOfAgent agent = "npm" →
        ∃ pkg', (applyPackageOverrides ext dir pkg ov).2 = .ok pkg' ∧
          (∃ o, pkg'.overrides = some o ∧ dlookup o k = some v) ∧
          (∀ d, pkg.dependencies = some d → (dlookup d k).getD "" ≠ "" →
            ∃ d', pkg'.dependencies = some d' ∧ dlookup d' k = some v) ∧
          (∀ d, pkg.devDependencies = some d → (dlookup d k).getD "" ≠ "" →
            ∃ d', pkg'.devDependencies = some d' ∧ dlookup d' k = some v)) ∧
      (pmOfAgent agent ≠ "pnpm" → pmOfAgent agent ≠ "yarn" →
        pmOfAgent agent ≠ "npm" →
        (applyPackageOverrides ext dir pkg ov).2
          = .error (Err.unsupportedPM (pmOfAgent agent))) := by
  have hmerge : ∀ a : List (String × String),
      dlookup (mergeObj a (sanitizeOverrides ext.fs ext.cwd ov)) k
        = some v := by
    intro a
    rw [dlookup_mergeObj, hk]
    rfl
  constructor
  · intro h
    simp [applyPackageOverrides, h]
  · intro agent hagent
    refine ⟨?_, ?_, ?_, ?_⟩
    · intro hpm
      simp only [applyPackageOverrides, hagent, hpm, if_pos rfl]
      exact ⟨_, rfl, ⟨_, rfl, hmerge _⟩, ⟨_, _, rfl, rfl, hmerge _⟩⟩
    · intro hpm
      have hprev : overridePackageManagerVersion pkg "yarn" ext.pmVersionOut
          = (pkg, false) := by
        simp [overridePackageManagerVersion]
      simp only [applyPackageOverrides, hagent, hpm, hprev]
      refine ⟨_, rfl, ⟨_, rfl, hmerge _⟩, rfl, rfl, rfl, rfl⟩
    · intro hpm
      have hprev : overridePackageManagerVersion pkg "npm" ext.pmVersionOut
          = (pkg, false) := by
        simp [overridePackageManagerVersion]
      have hnd' : (keysOf (sanitizeOverrides ext.fs ext.cwd ov)).Nodup :=
        (keysOf_sanitize_sublist ext.fs ext.cwd ov).nodup hnd
      simp only [applyPackageOverrides, hagent, hpm, hprev]
      obtain ⟨hdep, hdev, hovr⟩ := npmFold_fields
        (sanitizeOverrides ext.fs ext.cwd ov)
        { pkg with
          overrides := some (mergeObj (pkg.overrides.getD [])
            (sanitizeOverrides ext.fs ext.cwd ov)) }
      refine ⟨_, rfl,
        ⟨mergeObj (pkg.overrides.getD [])
          (sanitizeOverrides ext.fs ext.cwd ov), hovr, hmerge _⟩, ?_, ?_⟩
      · intro d hd htr
        rw [hdep]
        refine ⟨applyDirect d (sanitizeOverrides ext.fs ext.cwd ov), ?_, ?_⟩
        · show Option.map _ pkg.dependencies = _
          rw [hd, Option.map_some']
        · rw [dlookup_applyDirect _ d k v hnd' hk, if_pos htr]
      · intro d hd htr
        rw [hdev]
        refine ⟨applyDirect d (sanitizeOverrides ext.fs ext.cwd ov), ?_, ?_⟩
        · show Option.map _ pkg.devDependencies = _
          rw [hd, Option.map_some']
        · rw [dlookup_applyDirect _ d k v hnd' hk, if_pos htr]
    · intro h1 h2 h3
      simp [applyPackageOverrides, hagent, h1, h2, h3]

/-- Witness for C6 at a concrete input: applying `pkg-x: 1.0.0` under a
detected pnpm places the entry in devDependencies and pnpm.overrides. -/
theorem c6_manager_specific_application_witness :
    ∃ pkg', (applyPackageOverrides c6Ext "d" {}
        [("pkg-x", OvVal.str "1.0.0")]).2 = .ok pkg' ∧
      (∃ d, pkg'.devDependencies = some d ∧
        dlookup d "pkg-x" = some "1.0.0") ∧
      (∃ pn o, pkg'.pnpm = some pn ∧ pn.overrides = some o ∧
        dlookup o "pkg-x" = some "1.0.0") :=
  (((c6_manager_specific_application c6Ext "d" {}
    [("pkg-x", OvVal.str "1.0.0")] "pkg-x" "1.0.0"
    (by decide) (by decide)).2 "pnpm@8" rfl).1) (by decide)

theorem runTask_no_applyEff (sc : List (String × String)) (ag : String)
    (t : Option Task) :
    ∀ e ∈ (runTask sc ag t).1, REff.isApplyEff e = false := by
  intro e he
  cases t with
  | none => simp [runTask] at he
  | some tk =>
    cases tk with
    | str s =>
      by_cases hs : s = ""
      · simp [runTask, hs] at he
      · cases hp : parseCommand s with
        | some cf =>
          by_cases hl : (dlookup sc cf.1).isSome <;>
            simp [runTask, hs, hp, hl] at he <;>
            subst he <;> rfl
        | none => simp [runTask, hs, hp] at he
    | fn id =>
      simp [runTask] at he
      subst he
      rfl
    | scriptRef scr args =>
      by_cases hsc : scr = ""
      · simp [runTask, hsc] at he
      · by_cases hl : (dlookup sc scr).isSome <;>
          simp [runTask, hsc, hl] at he
        subst he
        rfl

theorem runTasks_no_applyEff (sc : List (String × String)) (ag : String) :
    ∀ ts : List (Option Task),
      ∀ e ∈ (runTasks sc ag ts).1, REff.isApplyEff e = false := by
  intro ts
  induction ts with
  | nil => simp [runTasks]
  | cons t rest ih =>
    intro e he
    cases hr : runTask sc ag t with
    | mk effs err =>
      cases err with
      | some e' =>
        rw [runTasks, hr] at he
        exact runTask_no_applyEff sc ag t e (hr ▸ he)
      | none =>
        rw [runTasks, hr] at he
        simp only [List.mem_append] at he
        rcases he with he | he
        · exact runTask_no_applyEff sc ag t e (hr ▸ he)
        · exact ih e he

theorem runTaskArg_no_applyEff (sc : List (String × String)) (ag : String)
    (ta : TaskArg) :
    ∀ e ∈ (runTaskArg sc ag ta).1, REff.isApplyEff e = false :=
  runTasks_no_applyEff sc ag (toTasks ta)

theorem runHooks_no_applyEff (sc : List (String × String)) (ag : String) :
    ∀ hs : List TaskArg,
      ∀ e ∈ (runHooks sc ag hs).1, REff.isApplyEff e = false := by
  intro hs
  induction hs with
  | nil => simp [runHooks]
  | cons h t ih =>
    intro e he
    cases herr : (runTaskArg sc ag h).2 with
    | some e' =>
      rw [runHooks] at he
      simp only [herr] at he
      exact runTaskArg_no_applyEff sc ag h e he
    | none =>
      rw [runHooks] at he
      simp only [herr, List.mem_append] at he
      rcases he with he | he
      · exact runTaskArg_no_applyEff sc ag h e he
      · exact ih e he

theorem mapGit_no_applyEff (l : List Cmd) :
    ∀ e ∈ l.map REff.git, REff.isApplyEff e = false := by
  intro e he
  simp only [List.mem_map] at he
  obtain ⟨c, _, rfl⟩ := he
  rfl

theorem runPreHooks_no_applyEff (ext : RunExt) (tr : List REff)
    (o2 : RunOptions) (ag : String)
    (htr : ∀ e ∈ tr, REff.isApplyEff e = false) :
    ∀ e ∈ (runPreHooks ext tr o2 ag).1, REff.isApplyEff e = false := by
  intro e he
  unfold runPreHooks at he
  cases hbi : (runTaskArg ext.pkg.scripts ag o2.beforeInstall).2 with
  | some e' =>
    simp only [hbi, List.mem_append] at he
    rcases he with he | he
    · exact htr e he
    · exact runTaskArg_no_applyEff _ _ _ e he
  | none =>
    simp only [hbi] at he
    by_cases hv : (o2.verify.getD false = true) ∧ taskArgTruthy o2.test = true
    · simp only [if_pos hv] at he
      cases hver : (runHooks ext.pkg.scripts ag
          [o2.beforeBuild, o2.build, o2.beforeTest, o2.test]).2 <;>
        simp only [hver, List.mem_append, List.mem_singleton] at he <;>
        rcases he with ((he | he) | he) | he
      · exact htr e he
      · exact runTaskArg_no_applyEff _ _ _ e he
      · subst he; rfl
      · exact runHooks_no_applyEff _ _ _ e he
      · exact htr e he
      · exact runTaskArg_no_applyEff _ _ _ e he
      · subst he; rfl
      · exact runHooks_no_applyEff _ _ _ e he
    · simp only [if_neg hv, List.mem_append] at he
      rcases he with he | he
      · exact htr e he
      · exact runTaskArg_no_applyEff _ _ _ e he

theorem runPreGit_no_applyEff (gw : GitWorld) (o1 : RunOptions) :
    ∀ e ∈ (runPreGit gw o1).1, REff.isApplyEff e = false := by
  intro e he
  unfold runPreGit at he
  by_cases hskip : o1.skipGit.getD false = true
  · simp [hskip] at he
  · rw [if_neg hskip] at he
    exact mapGit_no_applyEff _ e he

theorem runPre_no_applyEff (ext : RunExt) (gw : GitWorld) (o : RunOptions) :
    ∀ e ∈ (runPre ext gw o).1, REff.isApplyEff e = false := by
  intro e
  have hgit := runPreGit_no_applyEff gw (preDefaults o)
  unfold runPre
  dsimp only
  cases hg : (runPreGit gw (preDefaults o)).2 with
  | error e' =>
    intro he
    exact hgit e he
  | ok u =>
    dsimp only
    cases hag : (preDefaults o).agent with
    | none =>
      dsimp only
      cases hdet : ext.detectRun with
      | none =>
        intro he
        exact hgit e he
      | some a =>
        dsimp only
        by_cases hkn : ext.knownAgents.contains a = true
        · rw [if_neg (not_not_intro hkn)]
          exact runPreHooks_no_applyEff ext _ _ a hgit e
        · rw [if_pos hkn]
          intro he
          exact hgit e he
    | some a =>
      dsimp only
      by_cases hkn : ext.knownAgents.contains a = true
      · rw [if_neg (not_not_intro hkn)]
        exact runPreHooks_no_applyEff ext _ _ a hgit e
      · rw [if_pos hkn]
        intro he
        exact hgit e he

theorem runTask_err_shape (sc : List (String × String)) (ag : String)
    (t : Option Task) (e : Err) (h : (runTask sc ag t).2 = some e) :
    (∃ s, e = Err.invalidTask s) ∨
    (∃ s, e = Err.invalidTaskMissingScript s) := by
  cases t with
  | none => simp [runTask] at h
  | some tk =>
    cases tk with
    | str s =>
      by_cases hs : s = ""
      · simp [runTask, hs] at h
      · cases hp : parseCommand s with
        | some cf =>
          by_cases hl : (dlookup sc cf.1).isSome <;>
            simp [runTask, hs, hp, hl] at h
        | none =>
          simp [runTask, hs, hp] at h
          exact Or.inl ⟨s, h.symm⟩
    | fn id => simp [runTask] at h
    | scriptRef scr args =>
      by_cases hsc : scr = ""
      · simp [runTask, hsc] at h
        exact Or.inl ⟨"object", h.symm⟩
      · by_cases hl : (dlookup sc scr).isSome <;>
          simp [runTask, hsc, hl] at h
        exact Or.inr ⟨scr, h.symm⟩

theorem runTasks_err_shape (sc : List (String × String)) (ag : String) :
    ∀ (ts : List (Option Task)) (e : Err),
      (runTasks sc ag ts).2 = some e →
      (∃ s, e = Err.invalidTask s) ∨
      (∃ s, e = Err.invalidTaskMissingScript s) := by
  intro ts
  induction ts with
  | nil => intro e h; simp [runTasks] at h
  | cons t rest ih =>
    intro e h
    cases hr : runTask sc ag t with
    | mk effs err =>
      cases err with
      | some e' =>
        rw [runTasks, hr] at h
        injection h with h
        subst h
        exact runTask_err_shape sc ag t e' (by rw [hr])
      | none =>
        rw [runTasks, hr] at h
        simp only at h
        exact ih e h

theorem runHooks_err_shape (sc : List (String × String)) (ag : String) :
    ∀ (hs : List TaskArg) (e : Err),
      (runHooks sc ag hs).2 = some e →
      (∃ s, e = Err.invalidTask s) ∨
      (∃ s, e = Err.invalidTaskMissingScript s) := by
  intro hs
  induction hs with
  | nil => intro e h; simp [runHooks] at h
  | cons h t ih =>
    intro e hh
    cases herr : (runTaskArg sc ag h).2 with
    | some e' =>
      rw [runHooks] at hh
      simp only [herr] at hh
      injection hh with hh
      subst hh
      exact runTasks_err_shape sc ag (toTasks h) e' herr
    | none =>
      rw [runHooks] at hh
      simp only [herr] at hh
      exact ih e hh

theorem applyPackageOverrides_err_shape (ext : ApplyExt) (dir : String)
    (pkg : Pkg) (ov : List (String × OvVal)) (e : Err)
    (h : (applyPackageOverrides ext dir pkg ov).2 = .error e) :
    (∃ d, e = Err.failedDetectApply d) ∨ (∃ p, e = Err.unsupportedPM p) := by
  unfold applyPackageOverrides at h
  cases hdet : ext.detect with
  | none =>
    simp only [hdet] at h
    exact Or.inl ⟨dir, by injection h with h; exact h.symm⟩
  | some agent =>
    simp only [hdet] at h
    by_cases h1 : pmOfAgent agent = "pnpm"
    · simp [h1] at h
    · by_cases h2 : pmOfAgent agent = "yarn"
      · simp [h1, h2] at h
      · by_cases h3 : pmOfAgent agent = "npm"
        · simp [h1, h2, h3] at h
        · simp only [h1, h2, h3, if_false, ite_false] at h
          refine Or.inr ⟨pmOfAgent agent, ?_⟩
          simp at h
          exact h.symm

theorem runPost_no_conflict (ext : RunExt) (o2 : RunOptions)
    (ag dir : String) (ov' : List (String × OvVal))
    (hres : resolveOverrides o2.release o2.qwikPath (o2.overrides.getD [])
      = .ok ov') (vv : OvVal) (rr : String) :
    (runPost ext o2 ag dir).2.2 ≠ .error (Err.conflictingOverride vv rr) := by
  unfold runPost
  rw [hres]
  cases hap : (applyPackageOverrides ext.applyExt dir ext.pkg ov').2 with
  | error e =>
    simp only [hap]
    intro hcon
    injection hcon with hcon
    rcases applyPackageOverrides_err_shape ext.applyExt dir ext.pkg ov' e hap
      with ⟨d, rfl⟩ | ⟨p, rfl⟩ <;> exact Err.noConfusion hcon
  | ok pkg' =>
    simp only [hap]
    cases hhb : (runHooks ext.pkg.scripts ag [o2.beforeBuild, o2.build]).2 with
    | some e =>
      simp only [hhb]
      intro hcon
      injection hcon with hcon
      rcases runHooks_err_shape ext.pkg.scripts ag _ e hhb
        with ⟨s, rfl⟩ | ⟨s, rfl⟩ <;> exact Err.noConfusion hcon
    | none =>
      simp only [hhb]
      by_cases htt : taskArgTruthy o2.test = true
      · rw [if_pos htt]
        cases hht : (runHooks ext.pkg.scripts ag
            [o2.beforeTest, o2.test]).2 with
        | some e =>
          simp only [hht]
          intro hcon
          injection hcon with hcon
          rcases runHooks_err_shape ext.pkg.scripts ag _ e hht
            with ⟨s, rfl⟩ | ⟨s, rfl⟩ <;> exact Err.noConfusion hcon
        | none =>
          simp only [hht]
          intro hcon
          exact Except.noConfusion hcon
      · rw [if_neg htt]
        intro hcon
        exact Except.noConfusion hcon

/-- C2: with a truthy explicit release and a truthy explicit value for the
checked override key, `runInRepo` fails with the conflicting-configuration
error exactly when the two values differ; when they conflict the error is
raised before any override is applied (the trace is exactly the pre-phase
trace, which contains no Override Engine effect); and when they are equal
the resolution step accepts and writes the release into the override
entry, so the run proceeds past the check. -/
theorem c2_conflicting_release_override (ext : RunExt) (gw : GitWorld)
    (o : RunOptions) (tr0 : List REff) (o2 : RunOptions)
    (r : String) (ov : List (String × OvVal)) (v : OvVal)
    (hpre : runPre ext gw o = (tr0, o2, .ok ()))
    (hr : o2.release = some r) (hr' : r ≠ "")
    (hov : o2.overrides = some ov)
    (hv : dlookup ov "vite" = some v) (ht : v.truthy = true) :
    ((runInRepo ext gw o).2.2 = .error (Err.conflictingOverride v r) ↔
      v ≠ OvVal.str r) ∧
    (v ≠ OvVal.str r →
      (runInRepo ext gw o).1 = tr0 ∧
      ∀ e ∈ tr0, REff.isApplyEff e = false) ∧
    (v = OvVal.str r →
      resolveOverrides o2.release o2.qwikPath (o2.overrides.getD [])
        = .ok (setKey ov "vite" (OvVal.str r))) := by
  have hrun : runInRepo ext gw o
      = (tr0 ++ (runPost ext o2 (o2.agent.getD "") (runDirOf o2)).1,
         (runPost ext o2 (o2.agent.getD "") (runDirOf o2)).2.1,
         (runPost ext o2 (o2.agent.getD "") (runDirOf o2)).2.2) := by
    simp [runInRepo, hpre]
  have hres : resolveOverrides o2.release o2.qwikPath (o2.overrides.getD [])
      = if v = OvVal.str r
        then .ok (setKey ov "vite" (OvVal.str r))
        else .error (Err.conflictingOverride v r) := by
    unfold resolveOverrides
    rw [hov, hr]
    simp only [Option.getD_some]
    rw [if_pos hr', hv]
    dsimp only
    by_cases hvr : v = OvVal.str r
    · rw [if_pos hvr, if_neg (fun hc => hc.2 hvr)]
    · rw [if_neg hvr, if_pos ⟨ht, hvr⟩]
  refine ⟨?_, ?_, ?_⟩
  · constructor
    · intro hconf
      by_contra hvr
      have hok : resolveOverrides o2.release o2.qwikPath
          (o2.overrides.getD []) = .ok (setKey ov "vite" (OvVal.str r)) := by
        rw [hres, if_pos hvr]
      rw [hrun] at hconf
      exact runPost_no_conflict ext o2 (o2.agent.getD "") (runDirOf o2)
        _ hok v r hconf
    · intro hvr
      have herr : resolveOverrides o2.release o2.qwikPath
          (o2.overrides.getD [])
          = .error (Err.conflictingOverride v r) := by
        rw [hres, if_neg hvr]
      rw [hrun]
      show (runPost ext o2 (o2.agent.getD "") (runDirOf o2)).2.2 = _
      unfold runPost
      rw [herr]
  · intro hvr
    have herr : resolveOverrides o2.release o2.qwikPath
        (o2.overrides.getD [])
        = .error (Err.conflictingOverride v r) := by
      rw [hres, if_neg hvr]
    constructor
    · rw [hrun]
      show tr0 ++ (runPost ext o2 (o2.agent.getD "") (runDirOf o2)).1 = tr0
      unfold runPost
      rw [herr]
      simp
    · intro e he
      have hall := runPre_no_applyEff ext gw o e
      rw [hpre] at hall
      exact hall he
  · intro hvr
    rw [hres, if_pos hvr]

/-- Witness for C2 at a concrete input: release 1.0.0 with an explicit
override of the checked key to 2.0.0 makes the run fail with the
conflicting-configuration error. -/
theorem c2_conflicting_release_override_witness :
    (runInRepo c2Ext ⟨false, none⟩ c2Opts).2.2
      = .error (Err.conflictingOverride (OvVal.str "2.0.0") "1.0.0") :=
  ((c2_conflicting_release_override c2Ext ⟨false, none⟩ c2Opts []
    (preDefaults c2Opts) "1.0.0" [("vite", OvVal.str "2.0.0")]
    (OvVal.str "2.0.0") (by decide) rfl (by decide) rfl (by decide)
    (by decide)).1).mpr (by decide)

theorem runPreHooks_opts (ext : RunExt) (tr : List REff) (o2 : RunOptions)
    (ag : String) : (runPreHooks ext tr o2 ag).2.1 = o2 := by
  unfold runPreHooks
  cases hbi : (runTaskArg ext.pkg.scripts ag o2.beforeInstall).2 with
  | some e => simp only [hbi]
  | none =>
    simp only [hbi]
    by_cases hv : (o2.verify.getD false = true) ∧ taskArgTruthy o2.test = true
    · rw [if_pos hv]
      cases hver : (runHooks ext.pkg.scripts ag
          [o2.beforeBuild, o2.build, o2.beforeTest, o2.test]).2 with
      | some e => simp only [hver]
      | none => simp only [hver]
    · rw [if_neg hv]

theorem runPre_opts_cases (ext : RunExt) (gw : GitWorld) (o : RunOptions) :
    (runPre ext gw o).2.1 = preDefaults o ∨
    (o.agent = none ∧ ∃ a, (runPre ext gw o).2.1
      = { preDefaults o with agent := some a }) := by
  unfold runPre
  dsimp only
  cases hg : (runPreGit gw (preDefaults o)).2 with
  | error e => left; rfl
  | ok u =>
    dsimp only
    cases hag : (preDefaults o).agent with
    | none =>
      have hoag : o.agent = none := hag
      dsimp only
      cases hdet : ext.detectRun with
      | none => left; rfl
      | some a =>
        dsimp only
        by_cases hkn : ext.knownAgents.contains a = true
        · rw [if_neg (not_not_intro hkn)]
          exact Or.inr ⟨hoag, a, runPreHooks_opts ext _ _ a⟩
        · rw [if_pos hkn]
          exact Or.inr ⟨hoag, a, rfl⟩
    | some a =>
      dsimp only
      by_cases hkn : ext.knownAgents.contains a = true
      · rw [if_neg (not_not_intro hkn)]
        exact Or.inl (runPreHooks_opts ext _ _ a)
      · rw [if_pos hkn]
        exact Or.inl rfl

theorem runPost_opts_cases (ext : RunExt) (o2 : RunOptions)
    (ag dir : String) :
    (runPost ext o2 ag dir).2.1 = o2 ∨
    ∃ ov', (runPost ext o2 ag dir).2.1
      = { o2 with overrides := o2.overrides.map (fun _ => ov') } := by
  unfold runPost
  cases hres : resolveOverrides o2.release o2.qwikPath
      (o2.overrides.getD []) with
  | error e => left; simp only [hres]
  | ok ov' =>
    right
    refine ⟨ov', ?_⟩
    simp only [hres]
    cases hap : (applyPackageOverrides ext.applyExt dir ext.pkg ov').2 with
    | error e => simp only [hap]
    | ok pkg' =>
      simp only [hap]
      cases hhb : (runHooks ext.pkg.scripts ag
          [o2.beforeBuild, o2.build]).2 with
      | some e => simp only [hhb]
      | none =>
        simp only [hhb]
        by_cases htt : taskArgTruthy o2.test = true
        · rw [if_pos htt]
          cases hht : (runHooks ext.pkg.scripts ag
              [o2.beforeTest, o2.test]).2 with
          | some e => simp only [hht]
          | none => simp only [hht]
        · rw [if_neg htt]

theorem setupRepo_opts (gw2 : GitWorld) (ro : RepoOptions) :
    (setupRepo gw2 ro).2.1 = setupRepoDefaults ro := by
  unfold setupRepo
  dsimp only
  split <;> rfl

theorem c10_fields_of (o : RunOptions) (X : RunOptions)
    (h : X = preDefaults o ∨
      (o.agent = none ∧ ∃ a, X = { preDefaults o with agent := some a }) ∨
      (∃ base ov', X
          = { base with overrides := base.overrides.map (fun _ => ov') } ∧
        (base = preDefaults o ∨
          (o.agent = none ∧
            ∃ a, base = { preDefaults o with agent := some a })))) :
    X.repo = o.repo ∧ X.workspace = o.workspace ∧
    X.qwikPath = o.qwikPath ∧ X.dir = o.dir ∧ X.tag = o.tag ∧
    X.commit = o.commit ∧ X.shallow = o.shallow ∧ X.release = o.release ∧
    X.build = o.build ∧ X.test = o.test ∧
    X.beforeInstall = o.beforeInstall ∧ X.beforeBuild = o.beforeBuild ∧
    X.beforeTest = o.beforeTest ∧ X.verify = jsDefault o.verify true ∧
    X.skipGit = jsDefault o.skipGit false ∧
    X.branch = jsDefault o.branch "main" ∧
    (o.agent ≠ none → X.agent = o.agent) ∧
    (o.overrides = none → X.overrides = none) := by
  rcases h with rfl | ⟨hag, a, rfl⟩ |
    ⟨base, ov', rfl, rfl | ⟨hag, a, rfl⟩⟩ <;>
    refine ⟨rfl, rfl, rfl, rfl, rfl, rfl, rfl, rfl, rfl, rfl, rfl, rfl,
      rfl, rfl, rfl, rfl, ?_, ?_⟩
  · intro _
    rfl
  · intro hn
    exact hn
  · intro hn
    exact absurd hag hn
  · intro hn
    exact hn
  · intro _
    rfl
  · intro hn
    show Option.map _ (preDefaults o).overrides = none
    rw [show (preDefaults o).overrides = o.overrides from rfl, hn]
    rfl
  · intro hn
    exact absurd hag hn
  · intro hn
    show Option.map _ (preDefaults o).overrides = none
    rw [show (preDefaults o).overrides = o.overrides from rfl, hn]
    rfl

/-- C10 (amended): `runInRepo` and `setupRepo` mutate the caller's options
record only in the documented ways — `verify`, `skipGit` and `branch` are
defaulted in place when unset (`branch` and `shallow` likewise by
`setupRepo`), `agent` is unchanged whenever the caller supplied it, a
caller-supplied overrides object may be rewritten in place (an absent one
stays absent), and every other field keeps its value. -/
theorem c10_options_mutation (ext : RunExt) (gw : GitWorld)
    (o : RunOptions) :
    (runInRepoOptions ext gw o).repo = o.repo ∧
    (runInRepoOptions ext gw o).workspace = o.workspace ∧
    (runInRepoOptions ext gw o).qwikPath = o.qwikPath ∧
    (runInRepoOptions ext gw o).dir = o.dir ∧
    (runInRepoOptions ext gw o).tag = o.tag ∧
    (runInRepoOptions ext gw o).commit = o.commit ∧
    (runInRepoOptions ext gw o).shallow = o.shallow ∧
    (runInRepoOptions ext gw o).release = o.release ∧
    (runInRepoOptions ext gw o).build = o.build ∧
    (runInRepoOptions ext gw o).test = o.test ∧
    (runInRepoOptions ext gw o).beforeInstall = o.beforeInstall ∧
    (runInRepoOptions ext gw o).beforeBuild = o.beforeBuild ∧
    (runInRepoOptions ext gw o).beforeTest = o.beforeTest ∧
    (runInRepoOptions ext gw o).verify = jsDefault o.verify true ∧
    (runInRepoOptions ext gw o).skipGit = jsDefault o.skipGit false ∧
    (runInRepoOptions ext gw o).branch = jsDefault o.branch "main" ∧
    (o.agent ≠ none → (runInRepoOptions ext gw o).agent = o.agent) ∧
    (o.overrides = none → (runInRepoOptions ext gw o).overrides = none) ∧
    ∀ (gw2 : GitWorld) (ro : RepoOptions),
      (setupRepo gw2 ro).2.1.branch = jsDefault ro.branch "main" ∧
      (setupRepo gw2 ro).2.1.shallow = jsDefault ro.shallow true ∧
      (setupRepo gw2 ro).2.1.repo = ro.repo ∧
      (setupRepo gw2 ro).2.1.dir = ro.dir ∧
      (setupRepo gw2 ro).2.1.tag = ro.tag ∧
      (setupRepo gw2 ro).2.1.commit = ro.commit := by
  have hdisj : runInRepoOptions ext gw o = preDefaults o ∨
      (o.agent = none ∧ ∃ a, runInRepoOptions ext gw o
        = { preDefaults o with agent := some a }) ∨
      (∃ base ov', runInRepoOptions ext gw o
          = { base with overrides := base.overrides.map (fun _ => ov') } ∧
        (base = preDefaults o ∨
          (o.agent = none ∧
            ∃ a, base = { preDefaults o with agent := some a }))) := by
    unfold runInRepoOptions runInRepo
    dsimp only
    cases hg : (runPre ext gw o).2.2 with
    | error e =>
      dsimp only
      rcases runPre_opts_cases ext gw o with h | ⟨hag, a, h⟩
      · exact Or.inl h
      · exact Or.inr (Or.inl ⟨hag, a, h⟩)
    | ok u =>
      dsimp only
      rcases runPost_opts_cases ext (runPre ext gw o).2.1
          ((runPre ext gw o).2.1.agent.getD "")
          (runDirOf (runPre ext gw o).2.1) with hpost | ⟨ov', hpost⟩
      · rcases runPre_opts_cases ext gw o with h | ⟨hag, a, h⟩
        · exact Or.inl (hpost.trans h)
        · exact Or.inr (Or.inl ⟨hag, a, hpost.trans h⟩)
      · exact Or.inr (Or.inr ⟨_, ov', hpost, runPre_opts_cases ext gw o⟩)
  obtain ⟨h1, h2, h3, h4, h5, h6, h7, h8, h9, h10, h11, h12, h13, h14,
    h15, h16, h17, h18⟩ := c10_fields_of o (runInRepoOptions ext gw o) hdisj
  refine ⟨h1, h2, h3, h4, h5, h6, h7, h8, h9, h10, h11, h12, h13, h14,
    h15, h16, h17, h18, ?_⟩
  intro gw2 ro
  rw [setupRepo_opts]
  exact ⟨rfl, rfl, rfl, rfl, rfl, rfl⟩

/-- C10 counterexample: the caller passes `branch` unset and finds it
rewritten to `some "main"` after `runInRepo` returns — the options record
is not immutable. -/
theorem c10_options_mutated_counterexample :
    c10Opts.branch = none ∧
    ((runInRepo c10Ext ⟨false, none⟩ c10Opts).2.1).branch = some "main" :=
  ⟨rfl, by decide⟩

/-- Witness for C10 at a concrete input, discharging the hypotheses of
the amended theorem. -/
theorem c10_options_mutation_witness :
    (runInRepoOptions c10Ext ⟨false, none⟩
      { repo := "r", workspace := "/ws", qwikPath := "/q",
        agent := some "npm", tag := some "t" }).tag = some "t" :=
  (c10_options_mutation c10Ext ⟨false, none⟩
    { repo := "r", workspace := "/ws", qwikPath := "/q",
      agent := some "npm", tag := some "t" }).2.2.2.2.1
